import Mathlib

/-!
Shallow embedding of the `linear_daes` package (files `_linear_daes.py` and
`_bode_plot.py`).  Two-dimensional numpy arrays are modelled by a shape list
together with a total entry function; scalar arithmetic is exact (a field `K`,
instantiated at `ℚ` or `ℂ`), idealising the floating-point arithmetic of the
source.  Python exceptions are modelled by explicit error values: the
constructor returns `Except PyErr`, the property setters return the resulting
object state paired with an optional error (a raising setter leaves the object
state unchanged), and `tf` returns `Except PyErr`.

External library calls are modelled as follows:

* `numpy.linalg.det` / matrix inversion: exact determinant and inverse over the
  field (`npInv` fails with `linAlgError` exactly on singular or non-square
  input, as `numpy.linalg.inv` raises `LinAlgError`);
* `scipy.linalg.eigvals(A, E)` followed by `numpy.any(numpy.isnan ...)`: an
  abstract boolean-valued parameter `eig` (the source treats the NaN convention
  of the solver as a library contract, so every theorem below holds for an
  arbitrary such function);
* `numpy.logspace`: modelled from its documented semantics over `ℝ`
  (`num` samples `10 ^ (start + k * (stop - start) / (num - 1))`).
-/

namespace LinearDAEs

/-- The exceptions surfaced by the modelled code.  The source raises
`ValueError("Inconsistent shape.")` (the spec's ShapeError),
`ValueError("System is not regular.")` (the spec's RegularityError), and
`numpy.linalg.LinAlgError` escapes from `numpy.linalg.inv` on singular input. -/
inductive PyErr where
  | shapeError
  | regularityError
  | linAlgError
deriving DecidableEq

/-- Model of a two-dimensional `numpy.ndarray` over scalars `K`: the shape of
the array (a list of dimension sizes, length 2 for genuinely two-dimensional
arrays) and a total entry function (values outside the index range are junk and
never influence the semantics). -/
structure NDArr (K : Type) where
  shape : List ℕ
  entry : ℕ → ℕ → K

variable {K : Type}

/-- `ndarray.ndim`: the number of axes. -/
def NDArr.ndim (X : NDArr K) : ℕ := X.shape.length

/-- `ndarray.shape[0]` of a two-dimensional array: the row count. -/
def NDArr.rows (X : NDArr K) : ℕ := X.shape.getD 0 0

/-- `ndarray.shape[1]` of a two-dimensional array: the column count. -/
def NDArr.cols (X : NDArr K) : ℕ := X.shape.getD 1 0

/-- The array `numpy.array([[]])`: shape `(1, 0)`, no elements.  This is the
default value of the constructor argument `E` in `LinearDAE.__init__`. -/
def npEmpty [Zero K] : NDArr K := ⟨[1, 0], fun _ _ => 0⟩

/-- `numpy.array_equal`: the two arrays have the same shape and the same
elements.  (For every reachable call in the source, the in-range entry
comparison below coincides with numpy's element comparison.) -/
def array_equal (X Y : NDArr K) : Prop :=
  X.shape = Y.shape ∧ ∀ i < X.rows, ∀ j < X.cols, X.entry i j = Y.entry i j

instance [DecidableEq K] (X Y : NDArr K) : Decidable (array_equal X Y) := by
  unfold array_equal; infer_instance

/-- `numpy.eye(r, c)`: ones on the main diagonal, zeros elsewhere. -/
def npEye [Zero K] [One K] (r c : ℕ) : NDArr K :=
  ⟨[r, c], fun i j => if i = j then 1 else 0⟩

/-- Elementwise `X * s` for a scalar `s` (the source writes `self.E * s`). -/
def NDArr.smulRight [Mul K] (X : NDArr K) (s : K) : NDArr K :=
  ⟨X.shape, fun i j => X.entry i j * s⟩

/-- Elementwise difference `X - Y` (shapes agree at every call site). -/
def NDArr.sub [Sub K] (X Y : NDArr K) : NDArr K :=
  ⟨X.shape, fun i j => X.entry i j - Y.entry i j⟩

/-- Elementwise sum `X + Y` (shapes agree at every call site). -/
def NDArr.add [Add K] (X Y : NDArr K) : NDArr K :=
  ⟨X.shape, fun i j => X.entry i j + Y.entry i j⟩

/-- Matrix product `X @ Y` (the inner dimensions agree at every call site). -/
def NDArr.matmul [NonUnitalNonAssocSemiring K] (X Y : NDArr K) : NDArr K :=
  ⟨[X.rows, Y.cols], fun i j => ∑ k ∈ Finset.range X.cols, X.entry i k * Y.entry k j⟩

/-- The square matrix (over `Fin X.rows`) read off an array; meaningful when
`X` is square. -/
def NDArr.toSq (X : NDArr K) : Matrix (Fin X.rows) (Fin X.rows) K :=
  Matrix.of fun i j => X.entry i j

/-- `numpy.linalg.det` (exact): determinant of a square array. -/
def NDArr.det [CommRing K] (X : NDArr K) : K := X.toSq.det

/-- The value computed by `numpy.linalg.inv` on a nonsingular square array:
the exact inverse `det⁻¹ • adjugate`, zero-padded outside the index range. -/
def npInvMat [Field K] (X : NDArr K) : NDArr K :=
  ⟨[X.rows, X.rows], fun i j =>
    if h : i < X.rows ∧ j < X.rows then
      ((X.det)⁻¹ • X.toSq.adjugate) ⟨i, h.1⟩ ⟨j, h.2⟩
    else 0⟩

/-- `numpy.linalg.inv`: raises `LinAlgError` on non-square or exactly singular
input, otherwise returns the inverse. -/
def npInv [Field K] [DecidableEq K] (X : NDArr K) : Except PyErr (NDArr K) :=
  if X.ndim = 2 ∧ X.rows = X.cols then
    if X.det = 0 then .error .linAlgError
    else .ok (npInvMat X)
  else .error .linAlgError

/-- The state of a `LinearDAE` object (`_linear_daes.py`, class `LinearDAE`):
the label, the five matrices, the derived dimension attributes and the two
derived boolean flags. -/
structure LinearDAE (K : Type) where
  label : String
  E : NDArr K
  A : NDArr K
  B : NDArr K
  C : NDArr K
  D : NDArr K
  n_r : ℕ
  n_c : ℕ
  m : ℕ
  p : ℕ
  isODE : Bool
  isRegular : Bool

/-- The effective `E` matrix assigned by the constructor: if the argument
equals `numpy.array([[]])` (the absent-`E` sentinel) it is replaced by
`numpy.eye` of `A`'s shape, otherwise it is kept (line 35 of the source). -/
def effE [Field K] [DecidableEq K] (A E : NDArr K) : NDArr K :=
  if array_equal E npEmpty then npEye A.rows A.cols else E

/-- The `isODE` flag as computed at construction and in the `E` setter:
`True if self.n_r == self.n_c and not det(self._E) == 0 else False`
(lines 65 and 135; the Python `and` short-circuits, so `det` is only
evaluated on a square matrix). -/
def odeFlag [Field K] [DecidableEq K] (n_r n_c : ℕ) (E : NDArr K) : Bool :=
  if n_r = n_c ∧ ¬(E.det = 0) then true else false

/-- The `isRegular` flag as computed at construction and in the `E` and `A`
setters (lines 68-73, 137-142, 160-165): regular if an ODE; non-regular if
non-square; otherwise regular iff the generalized eigenvalue solve
`scipy.linalg.eigvals(A, E)` produces no NaN (`eig A E = false`). -/
def regFlag (eig : NDArr K → NDArr K → Bool) (isODE : Bool) (n_r n_c : ℕ)
    (A E : NDArr K) : Bool :=
  if isODE then true
  else if ¬(n_r = n_c) then false
  else !eig A E

/-- `LinearDAE.__init__(A, B, C, D, E=np.array([[]]), label="")`: validates
that every argument is two-dimensional and that the five cross-matrix shape
relations hold, substitutes the identity for the sentinel `E`, derives the
dimension attributes and the `isODE` / `isRegular` flags.  A failed check
raises `ValueError("Inconsistent shape.")`; no object escapes then. -/
def LinearDAE.init [Field K] [DecidableEq K] (eig : NDArr K → NDArr K → Bool)
    (A B C D : NDArr K) (E : NDArr K := npEmpty) (label : String := "") :
    Except PyErr (LinearDAE K) :=
  if ¬(E.ndim = 2) ∨ ¬(A.ndim = 2) ∨ ¬(B.ndim = 2) ∨ ¬(C.ndim = 2) ∨ ¬(D.ndim = 2) then
    .error .shapeError
  else if ¬((effE A E).shape = A.shape) then .error .shapeError
  else if ¬(A.rows = B.rows) then .error .shapeError
  else if ¬(A.cols = C.cols) then .error .shapeError
  else if ¬(B.cols = D.cols) then .error .shapeError
  else if ¬(C.rows = D.rows) then .error .shapeError
  else
    .ok ⟨label, effE A E, A, B, C, D, A.rows, A.cols, B.cols, C.rows,
      odeFlag A.rows A.cols (effE A E),
      regFlag eig (odeFlag A.rows A.cols (effE A E)) A.rows A.cols A (effE A E)⟩

/-- The `E` property setter (lines 130-144): on a shape match, stores the new
`E` and recomputes both `isODE` and `isRegular`; otherwise raises and leaves
the object unchanged.  The returned pair is (object state afterwards, raised
exception if any). -/
def LinearDAE.setE [Field K] [DecidableEq K] (eig : NDArr K → NDArr K → Bool)
    (sys : LinearDAE K) (E : NDArr K) : LinearDAE K × Option PyErr :=
  if sys.E.shape = E.shape then
    ({ sys with
        E := E
        isODE := odeFlag sys.n_r sys.n_c E
        isRegular := regFlag eig (odeFlag sys.n_r sys.n_c E) sys.n_r sys.n_c sys.A E },
      none)
  else (sys, some .shapeError)

/-- The `A` property setter (lines 155-167): on a shape match, stores the new
`A` and recomputes `isRegular` (reading the stored `isODE`, which does not
depend on `A`); otherwise raises and leaves the object unchanged. -/
def LinearDAE.setA (eig : NDArr K → NDArr K → Bool)
    (sys : LinearDAE K) (A : NDArr K) : LinearDAE K × Option PyErr :=
  if sys.A.shape = A.shape then
    ({ sys with
        A := A
        isRegular := regFlag eig sys.isODE sys.n_r sys.n_c A sys.E },
      none)
  else (sys, some .shapeError)

/-- The `B` property setter (lines 178-183): shape check only. -/
def LinearDAE.setB (sys : LinearDAE K) (B : NDArr K) : LinearDAE K × Option PyErr :=
  if sys.B.shape = B.shape then ({ sys with B := B }, none)
  else (sys, some .shapeError)

/-- The `C` property setter (lines 194-199): shape check only. -/
def LinearDAE.setC (sys : LinearDAE K) (C : NDArr K) : LinearDAE K × Option PyErr :=
  if sys.C.shape = C.shape then ({ sys with C := C }, none)
  else (sys, some .shapeError)

/-- The `D` property setter (lines 210-215): shape check only. -/
def LinearDAE.setD (sys : LinearDAE K) (D : NDArr K) : LinearDAE K × Option PyErr :=
  if sys.D.shape = D.shape then ({ sys with D := D }, none)
  else (sys, some .shapeError)

/-- The matrix pencil `E * s - A` formed inside `tf` (line 233). -/
def LinearDAE.pencil [Field K] (sys : LinearDAE K) (s : K) : NDArr K :=
  (sys.E.smulRight s).sub sys.A

/-- `LinearDAE.tf(s)` (lines 218-235): on a regular system, returns
`self.C @ np.linalg.inv(self.E * s - self.A) @ self.B + self.D`; if the
pencil is singular at `s` the `LinAlgError` raised by `numpy.linalg.inv`
propagates; on a non-regular system raises
`ValueError("System is not regular.")`. -/
def LinearDAE.tf [Field K] [DecidableEq K] (sys : LinearDAE K) (s : K) :
    Except PyErr (NDArr K) :=
  if sys.isRegular then
    match npInv (sys.pencil s) with
    | .ok Pinv => .ok (((sys.C.matmul Pinv).matmul sys.B).add sys.D)
    | .error e => .error e
  else .error .regularityError

/-- `LinearDAE.get_tf()` (lines 238-252): a binding to `tf` if the system is
regular, `None` otherwise. -/
def LinearDAE.get_tf [Field K] [DecidableEq K] (sys : LinearDAE K) :
    Option (K → Except PyErr (NDArr K)) :=
  if sys.isRegular then some sys.tf else none

/-- `complex_to_dB` (`_bode_plot.py`, lines 273-284): entrywise
`20 * log10(abs(z))`. -/
noncomputable def complex_to_dB (Z : NDArr ℂ) : NDArr ℝ :=
  ⟨Z.shape, fun i j => 20 * Real.logb 10 (Complex.abs (Z.entry i j))⟩

/-- `complex_to_deg` (`_bode_plot.py`, lines 288-299): entrywise
`degrees(angle(z))`, principal value in degrees. -/
noncomputable def complex_to_deg (Z : NDArr ℂ) : NDArr ℝ :=
  ⟨Z.shape, fun i j => (Z.entry i j).arg * (180 / Real.pi)⟩

/-- `eval_fr(system, w)` (`_bode_plot.py`, lines 303-321): rejects a
non-regular system with `ValueError` (the spec's RegularityError), otherwise
evaluates `system.tf(w)` and converts the result to (magnitude in dB, phase in
degrees). -/
noncomputable def eval_fr (system : LinearDAE ℂ) (w : ℂ) :
    Except PyErr (NDArr ℝ × NDArr ℝ) :=
  if ¬ system.isRegular then .error .regularityError
  else
    match system.tf w with
    | .ok T => .ok (complex_to_dB T, complex_to_deg T)
    | .error e => .error e

/-- Modelled from numpy's documentation: `numpy.logspace(start, stop, num)`
returns `num` samples `10 ^ (start + k * (stop - start) / (num - 1))` for
`k = 0, ..., num - 1` (for `num = 1` the single sample is `10 ^ start`,
matching the convention that division by zero yields zero). -/
noncomputable def np_logspace (start stop : ℝ) (num : ℕ) : List ℝ :=
  (List.range num).map fun k : ℕ =>
    Real.rpow 10 (start + (k : ℝ) * ((stop - start) / ((num : ℝ) - 1)))

/-- The evaluation loop of `eval_fr_range` (lines 344-351): evaluates
`eval_fr` at `i * w` for each `w` in the list, in order, collecting the
magnitude and phase matrices; an exception raised at any sample propagates. -/
noncomputable def sweep (system : LinearDAE ℂ) :
    List ℝ → Except PyErr (List (NDArr ℝ) × List (NDArr ℝ))
  | [] => .ok ([], [])
  | w :: ws =>
    match eval_fr system ⟨0, w⟩ with
    | .error e => .error e
    | .ok mp =>
      match sweep system ws with
      | .error e => .error e
      | .ok msps => .ok (mp.1 :: msps.1, mp.2 :: msps.2)

/-- `eval_fr_range(system, w_start, w_end, w_num_points)` (`_bode_plot.py`,
lines 325-351): rejects a non-regular system, otherwise evaluates `eval_fr`
at `i * w` for every `w` in `numpy.logspace(w_start, w_end, w_num_points)`,
returning the list of magnitude matrices and the list of phase matrices
(the source stacks these lists into `(num, p, m)`-shaped arrays with
`numpy.array`; the stacking is a bijective repackaging of the lists). -/
noncomputable def eval_fr_range (system : LinearDAE ℂ) (w_start w_end : ℝ)
    (w_num_points : ℕ) : Except PyErr (List (NDArr ℝ) × List (NDArr ℝ)) :=
  if ¬ system.isRegular then .error .regularityError
  else sweep system (np_logspace w_start w_end w_num_points)

/-! Concrete fixtures used by witnesses and counterexamples. -/

/-- A constant `r`-by-`c` matrix. -/
def constMat (K : Type) [Zero K] [One K] (r c : ℕ) (v : K) : NDArr K :=
  ⟨[r, c], fun _ _ => v⟩

/-- A generalized-eigenvalue NaN test that never reports NaN (any concrete
instantiation of the abstract solver parameter will do for the witnesses). -/
def eigFF {K : Type} : NDArr K → NDArr K → Bool := fun _ _ => false

/-- The state built by the constructor over `ℚ` from a non-square `A` of
shape `(1, 2)` (so the classification short-circuits: not an ODE, not
regular), with the `E` argument omitted. -/
def sysQ : LinearDAE ℚ :=
  ⟨"", npEye 1 2, constMat ℚ 1 2 0, constMat ℚ 1 1 0, constMat ℚ 1 2 0,
    constMat ℚ 1 1 0, 1, 2, 1, 1, false, false⟩

/-! Helper lemmas about the derived flags. -/

/-- Unfolding of the regularity flag: true exactly for an ODE, or for a square
system whose eigenvalue solve reports no NaN. -/
theorem regFlag_eq_true_iff (eig : NDArr K → NDArr K → Bool) (ode : Bool)
    (n_r n_c : ℕ) (A E : NDArr K) :
    regFlag eig ode n_r n_c A E = true ↔
      (ode = true ∨ (n_r = n_c ∧ eig A E = false)) := by
  unfold regFlag
  split_ifs with h1 h2 <;> simp_all

/-- A non-square system that is not an ODE is flagged non-regular. -/
theorem regFlag_eq_false_of (eig : NDArr K → NDArr K → Bool) (ode : Bool)
    (n_r n_c : ℕ) (A E : NDArr K) (hne : n_r ≠ n_c) (hode : ode = false) :
    regFlag eig ode n_r n_c A E = false := by
  unfold regFlag
  simp [hne, hode]

/-- Characterisation of a successful construction: the stored fields are
exactly the ones assigned by `__init__`. -/
theorem init_ok_fields [Field K] [DecidableEq K] (eig : NDArr K → NDArr K → Bool)
    (A B C D E : NDArr K) (lab : String) (sys : LinearDAE K)
    (h : LinearDAE.init eig A B C D E lab = .ok sys) :
    sys.label = lab ∧ sys.E = effE A E ∧ sys.A = A ∧ sys.B = B ∧ sys.C = C ∧
      sys.D = D ∧ sys.n_r = A.rows ∧ sys.n_c = A.cols ∧ sys.m = B.cols ∧
      sys.p = C.rows ∧ sys.isODE = odeFlag A.rows A.cols (effE A E) ∧
      sys.isRegular =
        regFlag eig (odeFlag A.rows A.cols (effE A E)) A.rows A.cols A (effE A E) := by
  unfold LinearDAE.init at h
  split_ifs at h
  any_goals injection h
  subst sys
  exact ⟨rfl, rfl, rfl, rfl, rfl, rfl, rfl, rfl, rfl, rfl, rfl, rfl⟩

/-- Characterisation of a successful `E` replacement: the stored `E` is the
new matrix and both flags are recomputed; nothing else changes. -/
theorem setE_ok_fields [Field K] [DecidableEq K] (eig : NDArr K → NDArr K → Bool)
    (sys0 : LinearDAE K) (E : NDArr K) (sys : LinearDAE K)
    (h : sys0.setE eig E = (sys, none)) :
    sys.E = E ∧ sys.A = sys0.A ∧ sys.n_r = sys0.n_r ∧ sys.n_c = sys0.n_c ∧
      sys.isODE = odeFlag sys0.n_r sys0.n_c E ∧
      sys.isRegular =
        regFlag eig (odeFlag sys0.n_r sys0.n_c E) sys0.n_r sys0.n_c sys0.A E := by
  unfold LinearDAE.setE at h
  split_ifs at h
  · injection h with h1 h2
    subst h1
    exact ⟨rfl, rfl, rfl, rfl, rfl, rfl⟩
  · injection h with h1 h2
    injection h2

/-- Characterisation of a successful `A` replacement: the stored `A` is the
new matrix and `isRegular` is recomputed from the stored `isODE`. -/
theorem setA_ok_fields (eig : NDArr K → NDArr K → Bool)
    (sys0 : LinearDAE K) (A : NDArr K) (sys : LinearDAE K)
    (h : sys0.setA eig A = (sys, none)) :
    sys.A = A ∧ sys.E = sys0.E ∧ sys.n_r = sys0.n_r ∧ sys.n_c = sys0.n_c ∧
      sys.isODE = sys0.isODE ∧
      sys.isRegular = regFlag eig sys0.isODE sys0.n_r sys0.n_c A sys0.E := by
  unfold LinearDAE.setA at h
  split_ifs at h
  · injection h with h1 h2
    subst h1
    exact ⟨rfl, rfl, rfl, rfl, rfl, rfl⟩
  · injection h with h1 h2
    injection h2

/-- C1.  After construction, and after every successful mutation of `E` or
`A`, the flag `isRegular` is true iff the system is an ODE, or it is square
(`n_r = n_c`) and the generalized eigenvalue solve for the pencil `(A, E)`
reports no NaN eigenvalue; and `isRegular` is false whenever the system is
non-square and not an ODE.  The NaN test of the external eigenvalue solver is
the abstract parameter `eig`. -/
theorem regular_flag_invariant [Field K] [DecidableEq K]
    (eig : NDArr K → NDArr K → Bool) (sys0 sys : LinearDAE K)
    (A B C D E : NDArr K) (lab : String)
    (h : LinearDAE.init eig A B C D E lab = .ok sys ∨
         sys0.setE eig E = (sys, none) ∨ sys0.setA eig A = (sys, none)) :
    (sys.isRegular = true ↔
      (sys.isODE = true ∨ (sys.n_r = sys.n_c ∧ eig sys.A sys.E = false))) ∧
    (sys.n_r ≠ sys.n_c → sys.isODE = false → sys.isRegular = false) := by
  rcases h with h | h | h
  · obtain ⟨-, hE, hA, -, -, -, hnr, hnc, -, -, hode, hreg⟩ :=
      init_ok_fields eig A B C D E lab sys h
    rw [hE, hA, hnr, hnc, hode, hreg]
    exact ⟨regFlag_eq_true_iff _ _ _ _ _ _,
      fun hne hod => regFlag_eq_false_of _ _ _ _ _ _ hne hod⟩
  · obtain ⟨hE, hA, hnr, hnc, hode, hreg⟩ := setE_ok_fields eig sys0 E sys h
    rw [hE, hA, hnr, hnc, hode, hreg]
    exact ⟨regFlag_eq_true_iff _ _ _ _ _ _,
      fun hne hod => regFlag_eq_false_of _ _ _ _ _ _ hne hod⟩
  · obtain ⟨hA, hE, hnr, hnc, hode, hreg⟩ := setA_ok_fields eig sys0 A sys h
    rw [hE, hA, hnr, hnc, hode, hreg]
    exact ⟨regFlag_eq_true_iff _ _ _ _ _ _,
      fun hne hod => regFlag_eq_false_of _ _ _ _ _ _ hne hod⟩

/-- Witness for C1 at a concrete construction over `ℚ`. -/
theorem regular_flag_invariant_witness :
    LinearDAE.init eigFF (constMat ℚ 1 2 0) (constMat ℚ 1 1 0) (constMat ℚ 1 2 0)
        (constMat ℚ 1 1 0) npEmpty "" = .ok sysQ ∧
      ((sysQ.isRegular = true ↔
        (sysQ.isODE = true ∨ (sysQ.n_r = sysQ.n_c ∧ eigFF sysQ.A sysQ.E = false))) ∧
      (sysQ.n_r ≠ sysQ.n_c → sysQ.isODE = false → sysQ.isRegular = false)) :=
  ⟨rfl,
    regular_flag_invariant eigFF sysQ sysQ (constMat ℚ 1 2 0) (constMat ℚ 1 1 0)
      (constMat ℚ 1 2 0) (constMat ℚ 1 1 0) npEmpty "" (Or.inl rfl)⟩

/-- C4.  Construction fails, and fails with ShapeError (the source's
`ValueError("Inconsistent shape.")`), exactly when some input is not
two-dimensional or one of the five cross-matrix shape relations is violated
(stated for the effective `E`, i.e. after the absent-`E` sentinel has been
replaced by the identity).  Since the constructor either returns an error or a
fully-built state, no partial state is retained on failure. -/
theorem construction_shape_error [Field K] [DecidableEq K]
    (eig : NDArr K → NDArr K → Bool) (A B C D E : NDArr K) (lab : String) :
    ∀ e, LinearDAE.init eig A B C D E lab = .error e ↔
      (e = PyErr.shapeError ∧
        (¬(E.ndim = 2 ∧ A.ndim = 2 ∧ B.ndim = 2 ∧ C.ndim = 2 ∧ D.ndim = 2) ∨
         ¬((effE A E).shape = A.shape) ∨ ¬(A.rows = B.rows) ∨ ¬(A.cols = C.cols) ∨
         ¬(B.cols = D.cols) ∨ ¬(C.rows = D.rows))) := by
  intro e
  unfold LinearDAE.init
  split_ifs with h1 h2 h3 h4 h5 h6 <;> simp_all <;> tauto

/-- C5.  Replacing any of the five matrices with one of a different shape
fails with ShapeError and leaves the whole object state — every matrix and
every derived flag — unchanged (each setter returns the original state paired
with the error). -/
theorem setter_shape_error [Field K] [DecidableEq K]
    (eig : NDArr K → NDArr K → Bool) (sys : LinearDAE K)
    (XE XA XB XC XD : NDArr K)
    (hE : ¬ sys.E.shape = XE.shape) (hA : ¬ sys.A.shape = XA.shape)
    (hB : ¬ sys.B.shape = XB.shape) (hC : ¬ sys.C.shape = XC.shape)
    (hD : ¬ sys.D.shape = XD.shape) :
    sys.setE eig XE = (sys, some .shapeError) ∧
    sys.setA eig XA = (sys, some .shapeError) ∧
    sys.setB XB = (sys, some .shapeError) ∧
    sys.setC XC = (sys, some .shapeError) ∧
    sys.setD XD = (sys, some .shapeError) := by
  unfold LinearDAE.setE LinearDAE.setA LinearDAE.setB LinearDAE.setC LinearDAE.setD
  rw [if_neg hE, if_neg hA, if_neg hB, if_neg hC, if_neg hD]
  exact ⟨rfl, rfl, rfl, rfl, rfl⟩

/-- Witness for C5: every setter of a concrete system rejects a 3-by-3
replacement. -/
theorem setter_shape_error_witness :
    (¬ sysQ.E.shape = (constMat ℚ 3 3 0).shape) ∧
      sysQ.setE eigFF (constMat ℚ 3 3 0) = (sysQ, some .shapeError) ∧
      sysQ.setA eigFF (constMat ℚ 3 3 0) = (sysQ, some .shapeError) ∧
      sysQ.setB (constMat ℚ 3 3 0) = (sysQ, some .shapeError) ∧
      sysQ.setC (constMat ℚ 3 3 0) = (sysQ, some .shapeError) ∧
      sysQ.setD (constMat ℚ 3 3 0) = (sysQ, some .shapeError) :=
  ⟨by decide,
    setter_shape_error eigFF sysQ (constMat ℚ 3 3 0) (constMat ℚ 3 3 0)
      (constMat ℚ 3 3 0) (constMat ℚ 3 3 0) (constMat ℚ 3 3 0)
      (by decide) (by decide) (by decide) (by decide) (by decide)⟩

/-- C6.  On a system whose `isRegular` flag is false, `tf` at any complex
frequency raises RegularityError, and so do the single-point and swept
frequency-response routines, while `get_tf` returns `None` instead of
raising. -/
theorem non_regular_always_raises (sys : LinearDAE ℂ) (h : sys.isRegular = false) :
    (∀ s : ℂ, sys.tf s = .error .regularityError) ∧
    sys.get_tf = none ∧
    (∀ w : ℂ, eval_fr sys w = .error .regularityError) ∧
    (∀ (a b : ℝ) (n : ℕ), eval_fr_range sys a b n = .error .regularityError) := by
  refine ⟨fun s => ?_, ?_, fun w => ?_, fun a b n => ?_⟩
  · unfold LinearDAE.tf
    rw [if_neg (by simp [h])]
  · unfold LinearDAE.get_tf
    rw [if_neg (by simp [h])]
  · unfold eval_fr
    rw [if_pos (by simp [h])]
  · unfold eval_fr_range
    rw [if_pos (by simp [h])]

/-- A concrete non-regular system over `ℂ` (non-square, so not regular). -/
def sysCnr : LinearDAE ℂ :=
  ⟨"", npEye 1 2, constMat ℂ 1 2 0, constMat ℂ 1 1 0, constMat ℂ 1 2 0,
    constMat ℂ 1 1 0, 1, 2, 1, 1, false, false⟩

/-- Witness for C6 at the concrete non-regular system and concrete inputs. -/
theorem non_regular_always_raises_witness :
    sysCnr.isRegular = false ∧
    sysCnr.tf 0 = .error .regularityError ∧
    sysCnr.get_tf = none ∧
    eval_fr sysCnr 0 = .error .regularityError ∧
    eval_fr_range sysCnr 0 1 5 = .error .regularityError :=
  ⟨rfl, (non_regular_always_raises sysCnr rfl).1 0,
    (non_regular_always_raises sysCnr rfl).2.1,
    (non_regular_always_raises sysCnr rfl).2.2.1 0,
    (non_regular_always_raises sysCnr rfl).2.2.2 0 1 5⟩

/-- C10.  The swept evaluation performs no check of `numPoints >= 1`: on a
regular system, `numPoints = 0` silently yields two empty results (zero
frequency samples) instead of an error. -/
theorem sweep_zero_points (sys : LinearDAE ℂ) (h : sys.isRegular = true)
    (a b : ℝ) : eval_fr_range sys a b 0 = .ok ([], []) := by
  unfold eval_fr_range
  rw [if_neg (by simp [h])]
  have hnil : np_logspace a b 0 = [] := by simp [np_logspace]
  rw [hnil]
  rfl

/-- A concrete regular system over `ℂ`: the scalar ODE with `E = [[1]]`,
`A = [[-1]]`, `B = C = [[1]]`, `D = [[0]]` (transfer function `1/(s+1)`). -/
def sysStable : LinearDAE ℂ :=
  ⟨"", constMat ℂ 1 1 1, constMat ℂ 1 1 (-1), constMat ℂ 1 1 1,
    constMat ℂ 1 1 1, constMat ℂ 1 1 0, 1, 1, 1, 1, true, true⟩

/-- Witness for C10 at the concrete regular system. -/
theorem sweep_zero_points_witness :
    sysStable.isRegular = true ∧ eval_fr_range sysStable 0 1 0 = .ok ([], []) :=
  ⟨rfl, sweep_zero_points sysStable rfl 0 1⟩

/-! Exactness of the modelled `numpy.linalg.inv` on nonsingular input. -/

/-- Determinant of a 1-row array (used to evaluate concrete pencils). -/
theorem det_rows_one [CommRing K] (X : NDArr K) (h : X.rows = 1) :
    X.det = X.entry 0 0 := by
  haveI : Subsingleton (Fin X.rows) := by rw [h]; infer_instance
  exact Matrix.det_eq_elem_of_subsingleton X.toSq ⟨0, by rw [h]; norm_num⟩

/-- On a square array with nonzero determinant, the value returned by the
modelled `numpy.linalg.inv` is a right inverse. -/
theorem matmul_npInvMat [Field K] (X : NDArr K) (hsq : X.cols = X.rows)
    (hdet : X.det ≠ 0) :
    array_equal (X.matmul (npInvMat X)) (npEye X.rows X.rows) := by
  refine ⟨rfl, ?_⟩
  intro i hi j hj
  have hi' : i < X.rows := hi
  have hj' : j < X.rows := hj
  show (∑ k ∈ Finset.range X.cols, X.entry i k * (npInvMat X).entry k j)
      = (if i = j then 1 else 0)
  rw [hsq]
  have hrw : ∀ k ∈ Finset.range X.rows,
      X.entry i k * (npInvMat X).entry k j =
        (fun kk : ℕ => if hk : kk < X.rows then
          X.toSq ⟨i, hi'⟩ ⟨kk, hk⟩ *
            ((X.det)⁻¹ • X.toSq.adjugate) ⟨kk, hk⟩ ⟨j, hj'⟩ else 0) k := by
    intro k hk
    rw [Finset.mem_range] at hk
    simp only [npInvMat, hk, hj', and_self, dif_pos]
    rfl
  rw [Finset.sum_congr rfl hrw, ← Fin.sum_univ_eq_sum_range]
  have hfin : ∀ k : Fin X.rows,
      (fun kk : ℕ => if hk : kk < X.rows then
        X.toSq ⟨i, hi'⟩ ⟨kk, hk⟩ *
          ((X.det)⁻¹ • X.toSq.adjugate) ⟨kk, hk⟩ ⟨j, hj'⟩ else 0) (k : ℕ)
      = X.toSq ⟨i, hi'⟩ k * ((X.det)⁻¹ • X.toSq.adjugate) k ⟨j, hj'⟩ := by
    intro k
    simp [k.isLt]
  rw [Finset.sum_congr rfl fun k _ => hfin k]
  have hmul : ∑ k : Fin X.rows,
      X.toSq ⟨i, hi'⟩ k * ((X.det)⁻¹ • X.toSq.adjugate) k ⟨j, hj'⟩
      = (X.toSq * ((X.det)⁻¹ • X.toSq.adjugate)) ⟨i, hi'⟩ ⟨j, hj'⟩ :=
    (Matrix.mul_apply).symm
  rw [hmul, Matrix.mul_smul, Matrix.mul_adjugate, smul_smul,
    show X.toSq.det = X.det from rfl, inv_mul_cancel₀ hdet, one_smul,
    Matrix.one_apply]
  simp [Fin.mk.injEq]

/-- On a square array with nonzero determinant, the value returned by the
modelled `numpy.linalg.inv` is a left inverse. -/
theorem npInvMat_matmul [Field K] (X : NDArr K) (hsq : X.cols = X.rows)
    (hdet : X.det ≠ 0) :
    array_equal ((npInvMat X).matmul X) (npEye X.rows X.rows) := by
  refine ⟨?_, ?_⟩
  · show [X.rows, X.cols] = [X.rows, X.rows]
    rw [hsq]
  intro i hi j hj
  have hi' : i < X.rows := hi
  have hj' : j < X.rows := by
    have : ((npInvMat X).matmul X).cols = X.cols := rfl
    rw [this, hsq] at hj
    exact hj
  show (∑ k ∈ Finset.range (npInvMat X).cols, (npInvMat X).entry i k * X.entry k j)
      = (if i = j then 1 else 0)
  have hc : (npInvMat X).cols = X.rows := rfl
  rw [hc]
  have hrw : ∀ k ∈ Finset.range X.rows,
      (npInvMat X).entry i k * X.entry k j =
        (fun kk : ℕ => if hk : kk < X.rows then
          ((X.det)⁻¹ • X.toSq.adjugate) ⟨i, hi'⟩ ⟨kk, hk⟩ *
            X.toSq ⟨kk, hk⟩ ⟨j, hj'⟩ else 0) k := by
    intro k hk
    rw [Finset.mem_range] at hk
    simp only [npInvMat, hi', hk, and_self, dif_pos]
    rfl
  rw [Finset.sum_congr rfl hrw, ← Fin.sum_univ_eq_sum_range]
  have hfin : ∀ k : Fin X.rows,
      (fun kk : ℕ => if hk : kk < X.rows then
        ((X.det)⁻¹ • X.toSq.adjugate) ⟨i, hi'⟩ ⟨kk, hk⟩ *
          X.toSq ⟨kk, hk⟩ ⟨j, hj'⟩ else 0) (k : ℕ)
      = ((X.det)⁻¹ • X.toSq.adjugate) ⟨i, hi'⟩ k * X.toSq k ⟨j, hj'⟩ := by
    intro k
    simp [k.isLt]
  rw [Finset.sum_congr rfl fun k _ => hfin k]
  have hmul : ∑ k : Fin X.rows,
      ((X.det)⁻¹ • X.toSq.adjugate) ⟨i, hi'⟩ k * X.toSq k ⟨j, hj'⟩
      = (((X.det)⁻¹ • X.toSq.adjugate) * X.toSq) ⟨i, hi'⟩ ⟨j, hj'⟩ :=
    (Matrix.mul_apply).symm
  rw [hmul, Matrix.smul_mul, Matrix.adjugate_mul, smul_smul,
    show X.toSq.det = X.det from rfl, inv_mul_cancel₀ hdet, one_smul,
    Matrix.one_apply]
  simp [Fin.mk.injEq]

/-- On a regular system whose pencil at `s` is square with nonzero
determinant, `tf` succeeds and returns `C @ inv(E*s - A) @ B + D`. -/
theorem tf_ok_aux [Field K] [DecidableEq K] (sys : LinearDAE K) (s : K)
    (hreg : sys.isRegular = true)
    (hsh : (sys.pencil s).shape = [sys.n_c, sys.n_c])
    (hdet : (sys.pencil s).det ≠ 0) :
    sys.tf s =
      .ok (((sys.C.matmul (npInvMat (sys.pencil s))).matmul sys.B).add sys.D) := by
  have hrows : (sys.pencil s).rows = sys.n_c := by
    show (sys.pencil s).shape.getD 0 0 = sys.n_c
    rw [hsh]; rfl
  have hcols : (sys.pencil s).cols = sys.n_c := by
    show (sys.pencil s).shape.getD 1 0 = sys.n_c
    rw [hsh]; rfl
  have hnd : (sys.pencil s).ndim = 2 := by
    show (sys.pencil s).shape.length = 2
    rw [hsh]; rfl
  have hok : npInv (sys.pencil s) = .ok (npInvMat (sys.pencil s)) := by
    unfold npInv
    rw [if_pos ⟨hnd, hrows.trans hcols.symm⟩, if_neg hdet]
  unfold LinearDAE.tf
  rw [if_pos hreg, hok]

/-- C2.  On a regular system, at a complex frequency where the pencil
`E*s - A` is square with nonzero determinant (i.e. invertible), `tf` returns
`C @ inv(E*s - A) @ B + D`, a matrix of shape `(p, m)`, where the factor
`inv(E*s - A)` is a genuine two-sided inverse of the pencil. -/
theorem tf_eval_formula (sys : LinearDAE ℂ) (s : ℂ)
    (hreg : sys.isRegular = true)
    (hsh : (sys.pencil s).shape = [sys.n_c, sys.n_c])
    (hdet : (sys.pencil s).det ≠ 0)
    (hp : sys.C.rows = sys.p) (hm : sys.B.cols = sys.m) :
    sys.tf s =
      .ok (((sys.C.matmul (npInvMat (sys.pencil s))).matmul sys.B).add sys.D) ∧
    (((sys.C.matmul (npInvMat (sys.pencil s))).matmul sys.B).add sys.D).shape
      = [sys.p, sys.m] ∧
    array_equal ((sys.pencil s).matmul (npInvMat (sys.pencil s)))
      (npEye sys.n_c sys.n_c) ∧
    array_equal ((npInvMat (sys.pencil s)).matmul (sys.pencil s))
      (npEye sys.n_c sys.n_c) := by
  have hrows : (sys.pencil s).rows = sys.n_c := by
    show (sys.pencil s).shape.getD 0 0 = sys.n_c
    rw [hsh]; rfl
  have hcols : (sys.pencil s).cols = sys.n_c := by
    show (sys.pencil s).shape.getD 1 0 = sys.n_c
    rw [hsh]; rfl
  have hnd : (sys.pencil s).ndim = 2 := by
    show (sys.pencil s).shape.length = 2
    rw [hsh]; rfl
  have hsq : (sys.pencil s).cols = (sys.pencil s).rows := hcols.trans hrows.symm
  refine ⟨tf_ok_aux sys s hreg hsh hdet, ?_, ?_, ?_⟩
  · show [sys.C.rows, sys.B.cols] = [sys.p, sys.m]
    rw [hp, hm]
  · have h1 := matmul_npInvMat (sys.pencil s) hsq hdet
    rw [hrows] at h1
    exact h1
  · have h1 := npInvMat_matmul (sys.pencil s) hsq hdet
    rw [hrows] at h1
    exact h1

/-- Witness for C2: the concrete regular system `sysStable` at `s = 0`. -/
theorem tf_eval_formula_witness :
    sysStable.isRegular = true ∧ (sysStable.pencil 0).det ≠ 0 ∧
    (sysStable.tf 0 =
      .ok (((sysStable.C.matmul (npInvMat (sysStable.pencil 0))).matmul
        sysStable.B).add sysStable.D) ∧
    (((sysStable.C.matmul (npInvMat (sysStable.pencil 0))).matmul
      sysStable.B).add sysStable.D).shape = [sysStable.p, sysStable.m] ∧
    array_equal ((sysStable.pencil 0).matmul (npInvMat (sysStable.pencil 0)))
      (npEye sysStable.n_c sysStable.n_c) ∧
    array_equal ((npInvMat (sysStable.pencil 0)).matmul (sysStable.pencil 0))
      (npEye sysStable.n_c sysStable.n_c)) := by
  have hdet : (sysStable.pencil 0).det ≠ 0 := by
    rw [det_rows_one (sysStable.pencil 0) rfl]
    show (1 : ℂ) * 0 - (-1) ≠ 0
    norm_num
  exact ⟨rfl, hdet, tf_eval_formula sysStable 0 rfl rfl hdet rfl rfl⟩

/-- Successful construction: when every check passes, `init` returns exactly
the state assigned by `__init__`. -/
theorem init_eq_ok [Field K] [DecidableEq K] (eig : NDArr K → NDArr K → Bool)
    (A B C D E : NDArr K) (lab : String)
    (h1 : E.ndim = 2) (h2 : A.ndim = 2) (h3 : B.ndim = 2) (h4 : C.ndim = 2)
    (h5 : D.ndim = 2) (h6 : (effE A E).shape = A.shape) (h7 : A.rows = B.rows)
    (h8 : A.cols = C.cols) (h9 : B.cols = D.cols) (h10 : C.rows = D.rows) :
    LinearDAE.init eig A B C D E lab =
      .ok ⟨lab, effE A E, A, B, C, D, A.rows, A.cols, B.cols, C.rows,
        odeFlag A.rows A.cols (effE A E),
        regFlag eig (odeFlag A.rows A.cols (effE A E)) A.rows A.cols A (effE A E)⟩ := by
  unfold LinearDAE.init
  rw [if_neg (by push_neg; exact ⟨h1, h2, h3, h4, h5⟩),
    if_neg (not_not_intro h6), if_neg (not_not_intro h7),
    if_neg (not_not_intro h8), if_neg (not_not_intro h9),
    if_neg (not_not_intro h10)]

/-- The square ODE system with `E = A = B = C = [[1]]`, `D = [[0]]`: regular
(its `E` is invertible), with the generalized eigenvalue `s = 1`. -/
def sysSing : LinearDAE ℂ :=
  ⟨"", constMat ℂ 1 1 1, constMat ℂ 1 1 1, constMat ℂ 1 1 1, constMat ℂ 1 1 1,
    constMat ℂ 1 1 0, 1, 1, 1, 1, true, true⟩

/-- C8.  A reachable regular system (the square ODE with `E = A = [[1]]`)
whose pencil is singular at the generalized eigenvalue `s = 1`:
`tf` there neither returns a value nor raises RegularityError — the matrix
inversion fails with `LinAlgError`. -/
theorem tf_singular_pencil_fails :
    ∃ sys : LinearDAE ℂ,
      LinearDAE.init eigFF (constMat ℂ 1 1 1) (constMat ℂ 1 1 1)
          (constMat ℂ 1 1 1) (constMat ℂ 1 1 0) (constMat ℂ 1 1 1) "" = .ok sys ∧
      sys.isRegular = true ∧
      (sys.pencil 1).det = 0 ∧
      sys.tf 1 = .error .linAlgError ∧
      sys.tf 1 ≠ .error .regularityError := by
  have heff : effE (constMat ℂ 1 1 1) (constMat ℂ 1 1 1) = constMat ℂ 1 1 1 := by
    unfold effE
    exact if_neg fun hcontra => absurd hcontra.1 (by decide)
  have hdetE : (constMat ℂ 1 1 1).det = 1 := by
    rw [det_rows_one (constMat ℂ 1 1 1) rfl]
    rfl
  have hode : odeFlag (constMat ℂ 1 1 1).rows (constMat ℂ 1 1 1).cols
      (constMat ℂ 1 1 1) = true := by
    unfold odeFlag
    exact if_pos ⟨rfl, fun hc => one_ne_zero (hdetE.symm.trans hc)⟩
  have hinit := init_eq_ok eigFF (constMat ℂ 1 1 1) (constMat ℂ 1 1 1)
    (constMat ℂ 1 1 1) (constMat ℂ 1 1 0) (constMat ℂ 1 1 1) ""
    rfl rfl rfl rfl rfl (by rw [heff]) rfl rfl rfl rfl
  rw [heff, hode] at hinit
  have hinit2 : LinearDAE.init eigFF (constMat ℂ 1 1 1) (constMat ℂ 1 1 1)
      (constMat ℂ 1 1 1) (constMat ℂ 1 1 0) (constMat ℂ 1 1 1) "" = .ok sysSing :=
    hinit
  have hdet0 : (sysSing.pencil 1).det = 0 := by
    rw [det_rows_one (sysSing.pencil 1) rfl]
    show (1 : ℂ) * 1 - 1 = 0
    ring
  have hinv : npInv (sysSing.pencil 1) = .error .linAlgError := by
    unfold npInv
    rw [if_pos ⟨rfl, rfl⟩, if_pos hdet0]
  have htf : sysSing.tf 1 = .error .linAlgError := by
    unfold LinearDAE.tf
    rw [if_pos (show sysSing.isRegular = true from rfl), hinv]
  refine ⟨sysSing, hinit2, rfl, hdet0, htf, ?_⟩
  rw [htf]
  intro hcontra
  injection hcontra with hcontra2
  cases hcontra2


/-- The state built by the constructor over `ℚ` from `A` of shape `(2, 1)`
with the sentinel `E`. -/
def sysQ21 : LinearDAE ℚ :=
  ⟨"", npEye 2 1, constMat ℚ 2 1 0, constMat ℚ 2 1 0, constMat ℚ 1 1 0,
    constMat ℚ 1 1 0, 2, 1, 1, 1, false, false⟩

/-- The state built by the constructor over `ℚ` from `A` of shape `(1, 0)`
with the sentinel `E`: the substituted identity `eye(1, 0)` is itself an
empty 1-by-0 matrix. -/
def sysE10 : LinearDAE ℚ :=
  ⟨"", npEye 1 0, constMat ℚ 1 0 0, constMat ℚ 1 1 0, constMat ℚ 0 0 0,
    constMat ℚ 0 1 0, 1, 0, 1, 0, false, false⟩

/-- Counterexample to C9 as stated: passing the sentinel `E = np.array([[]])`
together with an `A` of shape `(1, 0)` successfully constructs a system whose
`E` (the substituted `eye(1, 0)`) is itself a 1-by-0 empty matrix — equal, as
a numpy array, to `np.array([[]])`.  So a system whose `E` is the 1-by-0 empty
matrix can be constructed through this argument. -/
theorem empty_E_system_constructed :
    LinearDAE.init eigFF (constMat ℚ 1 0 0) (constMat ℚ 1 1 0) (constMat ℚ 0 0 0)
        (constMat ℚ 0 1 0) npEmpty "" = .ok sysE10 ∧
    array_equal sysE10.E npEmpty ∧ sysE10.E.rows = 1 ∧ sysE10.E.cols = 0 :=
  ⟨rfl, by decide, rfl, rfl⟩

/-- C9 (amended).  Passing `E = np.array([[]])` is indistinguishable from
omitting `E`: the sentinel is replaced by `numpy.eye` of `A`\'s shape, so
construction behaves exactly as if that identity had been passed, and on
success the stored `E` is that identity.  The stored `E` equals the 1-by-0
empty array exactly when `A` itself has shape `(1, 0)` (then the substituted
identity is itself empty); for every other `A` no system whose `E` is the
1-by-0 empty matrix arises through this argument. -/
theorem empty_E_sentinel [Field K] [DecidableEq K] (eig : NDArr K → NDArr K → Bool)
    (A B C D : NDArr K) (lab : String) :
    LinearDAE.init eig A B C D npEmpty lab =
      LinearDAE.init eig A B C D (npEye A.rows A.cols) lab ∧
    (∀ sys, LinearDAE.init eig A B C D npEmpty lab = .ok sys →
      sys.E = npEye A.rows A.cols ∧
      (array_equal sys.E npEmpty ↔ (A.rows = 1 ∧ A.cols = 0))) := by
  have hempty : array_equal (npEmpty : NDArr K) npEmpty :=
    ⟨rfl, fun _ _ j hj => absurd hj (Nat.not_lt_zero j)⟩
  have heff1 : effE A (npEmpty : NDArr K) = npEye A.rows A.cols := by
    unfold effE
    exact if_pos hempty
  have heff2 : effE A (npEye A.rows A.cols) = npEye A.rows A.cols := by
    unfold effE
    split_ifs <;> rfl
  constructor
  · unfold LinearDAE.init
    rw [heff1, heff2]
    have hnd : (npEmpty : NDArr K).ndim = 2 := rfl
    have hnd2 : (npEye A.rows A.cols : NDArr K).ndim = 2 := rfl
    simp only [hnd, hnd2]
  · intro sys h
    obtain ⟨-, hE, -, -, -, -, -, -, -, -, -, -⟩ :=
      init_ok_fields eig A B C D npEmpty lab sys h
    rw [hE, heff1]
    refine ⟨rfl, ?_⟩
    constructor
    · intro haeq
      have hsh : ([A.rows, A.cols] : List ℕ) = [1, 0] := haeq.1
      simp only [List.cons.injEq, and_true] at hsh
      exact ⟨hsh.1, hsh.2⟩
    · rintro ⟨h1, h0⟩
      refine ⟨by rw [show (npEye A.rows A.cols : NDArr K).shape = [A.rows, A.cols] from rfl, h1, h0]; rfl, ?_⟩
      intro i hi j hj
      have hj2 : j < A.cols := hj
      rw [h0] at hj2
      exact absurd hj2 (Nat.not_lt_zero j)

/-- Witness for C9 (amended) at a concrete non-square construction over `ℚ`
(`A` of shape `(2, 1)`, so the substituted identity is `eye(2, 1)` and the
stored `E` is not empty). -/
theorem empty_E_sentinel_witness :
    (LinearDAE.init eigFF (constMat ℚ 2 1 0) (constMat ℚ 2 1 0) (constMat ℚ 1 1 0)
        (constMat ℚ 1 1 0) npEmpty "" =
      LinearDAE.init eigFF (constMat ℚ 2 1 0) (constMat ℚ 2 1 0) (constMat ℚ 1 1 0)
        (constMat ℚ 1 1 0) (npEye (constMat ℚ 2 1 0).rows (constMat ℚ 2 1 0).cols) "") ∧
    (sysQ21.E = npEye (constMat ℚ 2 1 0).rows (constMat ℚ 2 1 0).cols ∧
      (array_equal sysQ21.E npEmpty ↔
        ((constMat ℚ 2 1 0).rows = 1 ∧ (constMat ℚ 2 1 0).cols = 0))) :=
  ⟨(empty_E_sentinel eigFF (constMat ℚ 2 1 0) (constMat ℚ 2 1 0) (constMat ℚ 1 1 0)
      (constMat ℚ 1 1 0) "").1,
    (empty_E_sentinel eigFF (constMat ℚ 2 1 0) (constMat ℚ 2 1 0) (constMat ℚ 1 1 0)
      (constMat ℚ 1 1 0) "").2 sysQ21 rfl⟩

/-! Support for the swept frequency response (`eval_fr_range`). -/

/-- On a regular system whose `tf` succeeds, `eval_fr` returns the dB/degree
conversion of the transfer matrix. -/
theorem eval_fr_ok (sys : LinearDAE ℂ) (w : ℂ) (hreg : sys.isRegular = true)
    {T : NDArr ℂ} (htf : sys.tf w = .ok T) :
    eval_fr sys w = .ok (complex_to_dB T, complex_to_deg T) := by
  unfold eval_fr
  rw [if_neg (not_not_intro hreg), htf]

/-- The modelled `numpy.logspace` returns exactly `num` samples. -/
theorem np_logspace_length (a b : ℝ) (n : ℕ) : (np_logspace a b n).length = n := by
  simp [np_logspace]

/-- The `k`-th sample of the modelled `numpy.logspace`. -/
theorem np_logspace_getD (a b : ℝ) (n k : ℕ) (hk : k < n) :
    (np_logspace a b n).getD k 0 =
      Real.rpow 10 (a + (k : ℝ) * ((b - a) / ((n : ℝ) - 1))) := by
  unfold np_logspace
  rw [List.getD_eq_getElem _ _ (by simpa using hk)]
  rw [List.getElem_map, List.getElem_range]

/-- The first sample of a nonempty log sweep is `10 ^ start`. -/
theorem np_logspace_head (a b : ℝ) (n : ℕ) (hn : 1 ≤ n) :
    (np_logspace a b n).getD 0 0 = Real.rpow 10 a := by
  rw [np_logspace_getD a b n 0 hn]
  norm_num

/-- For `num ≥ 2`, the last sample of the log sweep is `10 ^ stop`. -/
theorem np_logspace_last (a b : ℝ) (n : ℕ) (h2 : 2 ≤ n) :
    (np_logspace a b n).getD (n - 1) 0 = Real.rpow 10 b := by
  rw [np_logspace_getD a b n (n - 1) (by omega)]
  congr 1
  have hge : (2 : ℝ) ≤ (n : ℝ) := by exact_mod_cast h2
  have hne : ((n : ℝ) - 1) ≠ 0 := by linarith
  have hcast : ((n - 1 : ℕ) : ℝ) = (n : ℝ) - 1 := by
    have h1 : (1 : ℕ) ≤ n := by omega
    push_cast [h1]
    ring
  rw [hcast]
  field_simp

/-- With `start ≤ stop`, the log sweep is (weakly) ascending. -/
theorem np_logspace_sorted (a b : ℝ) (n : ℕ) (hab : a ≤ b) (hn : 1 ≤ n) :
    (np_logspace a b n).Sorted (· ≤ ·) := by
  have h1n : (1 : ℝ) ≤ (n : ℝ) := by exact_mod_cast hn
  have hstep : 0 ≤ (b - a) / ((n : ℝ) - 1) :=
    div_nonneg (sub_nonneg.2 hab) (by linarith)
  show List.Pairwise (· ≤ ·) (np_logspace a b n)
  unfold np_logspace
  refine List.pairwise_map.mpr ((List.pairwise_lt_range n).imp ?_)
  intro i j hij
  refine (Real.rpow_le_rpow_left_iff (by norm_num : (1 : ℝ) < 10)).mpr ?_
  have hcast : (i : ℝ) ≤ (j : ℝ) := by exact_mod_cast hij.le
  nlinarith [mul_le_mul_of_nonneg_right hcast hstep]

/-- With `start ≤ stop`, every sample of the log sweep lies between
`10 ^ start` and `10 ^ stop` inclusive. -/
theorem np_logspace_bounds (a b : ℝ) (n : ℕ) (hab : a ≤ b) (hn : 1 ≤ n) :
    ∀ w ∈ np_logspace a b n, Real.rpow 10 a ≤ w ∧ w ≤ Real.rpow 10 b := by
  intro w hw
  unfold np_logspace at hw
  rw [List.mem_map] at hw
  obtain ⟨k, hk, rfl⟩ := hw
  rw [List.mem_range] at hk
  have h1n : (1 : ℝ) ≤ (n : ℝ) := by exact_mod_cast hn
  have hstep : 0 ≤ (b - a) / ((n : ℝ) - 1) :=
    div_nonneg (sub_nonneg.2 hab) (by linarith)
  constructor
  · refine (Real.rpow_le_rpow_left_iff (by norm_num : (1 : ℝ) < 10)).mpr ?_
    have : 0 ≤ (k : ℝ) * ((b - a) / ((n : ℝ) - 1)) :=
      mul_nonneg (Nat.cast_nonneg k) hstep
    linarith
  · refine (Real.rpow_le_rpow_left_iff (by norm_num : (1 : ℝ) < 10)).mpr ?_
    rcases Nat.lt_or_ge n 2 with hlt | hge
    · have hn1 : n = 1 := by omega
      subst hn1
      have hk0 : k = 0 := by omega
      subst hk0
      norm_num
      exact hab
    · have hge2 : (2 : ℝ) ≤ (n : ℝ) := by exact_mod_cast hge
      have hne : ((n : ℝ) - 1) ≠ 0 := by linarith
      have hkk : (k : ℝ) ≤ (n : ℝ) - 1 := by
        have : (k : ℝ) + 1 ≤ (n : ℝ) := by exact_mod_cast hk
        linarith
      have hprod : (k : ℝ) * ((b - a) / ((n : ℝ) - 1)) ≤
          ((n : ℝ) - 1) * ((b - a) / ((n : ℝ) - 1)) :=
        mul_le_mul_of_nonneg_right hkk hstep
      have hcancel : ((n : ℝ) - 1) * ((b - a) / ((n : ℝ) - 1)) = b - a := by
        field_simp
      linarith

/-- The evaluation loop: when every sample succeeds, `sweep` succeeds and the
`k`-th collected magnitude/phase pair is the single-point result at the `k`-th
frequency. -/
theorem sweep_ok (sys : LinearDAE ℂ) (l : List ℝ)
    (h : ∀ w ∈ l, ∃ mp, eval_fr sys ⟨0, w⟩ = .ok mp) :
    ∃ ms ps, sweep sys l = .ok (ms, ps) ∧ ms.length = l.length ∧
      ps.length = l.length ∧
      ∀ k, k < l.length → eval_fr sys ⟨0, l.getD k 0⟩
        = .ok (ms.getD k npEmpty, ps.getD k npEmpty) := by
  induction l with
  | nil => exact ⟨[], [], rfl, rfl, rfl, fun k hk => absurd hk (by simp)⟩
  | cons w ws ih =>
    obtain ⟨mp, hmp⟩ := h w (List.mem_cons_self w ws)
    obtain ⟨ms, ps, hsw, hlm, hlp, hpt⟩ :=
      ih (fun x hx => h x (List.mem_cons_of_mem w hx))
    refine ⟨mp.1 :: ms, mp.2 :: ps, ?_, by simp [hlm], by simp [hlp], ?_⟩
    · simp only [sweep, hmp, hsw]
    · intro k hk
      cases k with
      | zero =>
        show eval_fr sys ⟨0, w⟩ = .ok (mp.1, mp.2)
        rw [hmp]
      | succ j =>
        show eval_fr sys ⟨0, ws.getD j 0⟩ = .ok (ms.getD j npEmpty, ps.getD j npEmpty)
        exact hpt j (Nat.lt_of_succ_lt_succ hk)

/-- The determinant of the pencil of `sysStable` at the purely imaginary
frequency `i*w` is `1 + i*w`. -/
theorem sysStable_pencil_det (w : ℝ) :
    (sysStable.pencil ⟨0, w⟩).det = ⟨1, w⟩ := by
  rw [det_rows_one (sysStable.pencil ⟨0, w⟩) rfl]
  show (1 : ℂ) * ⟨0, w⟩ - (-1) = ⟨1, w⟩
  apply Complex.ext <;> simp

/-- The pencil of `sysStable` is invertible at every purely imaginary
frequency (the determinant `1 + i*w` has real part 1). -/
theorem sysStable_pencil_det_ne (w : ℝ) : (sysStable.pencil ⟨0, w⟩).det ≠ 0 := by
  rw [sysStable_pencil_det w]
  intro hcontra
  have := congrArg Complex.re hcontra
  simp at this

/-- C7 (amended).  On a regular system, for `numPoints ≥ 1` and
`startExp ≤ endExp`, with the pencil invertible at every sample: the sweep
generates exactly `numPoints` frequencies, log-spaced base 10, the first being
`10 ^ startExp`, the last (for `numPoints ≥ 2`) being `10 ^ endExp`, all lying
between those bounds, in ascending order; the swept evaluation evaluates the
single-point routine at `s = j*omega` for each sample in that order, and the
two returned stacks have `numPoints` slices of shape `(p, m)`, the slice at
each sample position being the single-point result at that frequency. -/
theorem eval_fr_range_spec (sys : LinearDAE ℂ) (a b : ℝ) (n : ℕ)
    (hreg : sys.isRegular = true) (hn : 1 ≤ n) (hab : a ≤ b)
    (hp : sys.C.rows = sys.p) (hm : sys.B.cols = sys.m)
    (hok : ∀ w ∈ np_logspace a b n,
      (sys.pencil ⟨0, w⟩).shape = [sys.n_c, sys.n_c] ∧
        (sys.pencil ⟨0, w⟩).det ≠ 0) :
    (np_logspace a b n).length = n ∧
    (np_logspace a b n).getD 0 0 = Real.rpow 10 a ∧
    (2 ≤ n → (np_logspace a b n).getD (n - 1) 0 = Real.rpow 10 b) ∧
    (np_logspace a b n).Sorted (· ≤ ·) ∧
    (∀ w ∈ np_logspace a b n, Real.rpow 10 a ≤ w ∧ w ≤ Real.rpow 10 b) ∧
    (∃ ms ps, eval_fr_range sys a b n = .ok (ms, ps) ∧ ms.length = n ∧
      ps.length = n ∧
      ∀ k, k < n →
        eval_fr sys ⟨0, (np_logspace a b n).getD k 0⟩
          = .ok (ms.getD k npEmpty, ps.getD k npEmpty) ∧
        (ms.getD k npEmpty).shape = [sys.p, sys.m] ∧
        (ps.getD k npEmpty).shape = [sys.p, sys.m]) := by
  refine ⟨np_logspace_length a b n, np_logspace_head a b n hn,
    fun h2 => np_logspace_last a b n h2, np_logspace_sorted a b n hab hn,
    np_logspace_bounds a b n hab hn, ?_⟩
  have hpts : ∀ w ∈ np_logspace a b n, ∃ mp, eval_fr sys ⟨0, w⟩ = .ok mp := by
    intro w hw
    obtain ⟨hshp, hdetp⟩ := hok w hw
    exact ⟨_, eval_fr_ok sys ⟨0, w⟩ hreg (tf_ok_aux sys ⟨0, w⟩ hreg hshp hdetp)⟩
  obtain ⟨ms, ps, hsw, hlm, hlp, hpt⟩ := sweep_ok sys (np_logspace a b n) hpts
  refine ⟨ms, ps, ?_, by rw [hlm, np_logspace_length],
    by rw [hlp, np_logspace_length], ?_⟩
  · unfold eval_fr_range
    rw [if_neg (not_not_intro hreg), hsw]
  · intro k hk
    have hk2 : k < (np_logspace a b n).length := by
      rw [np_logspace_length]
      exact hk
    have hmem : (np_logspace a b n).getD k 0 ∈ np_logspace a b n := by
      rw [List.getD_eq_getElem _ _ hk2]
      exact List.getElem_mem _
    obtain ⟨hshp, hdetp⟩ := hok _ hmem
    have heval := eval_fr_ok sys ⟨0, (np_logspace a b n).getD k 0⟩ hreg
      (tf_ok_aux sys _ hreg hshp hdetp)
    have hpair := (hpt k hk2).symm.trans heval
    injection hpair with hpair2
    have h1 : ms.getD k npEmpty =
        complex_to_dB (((sys.C.matmul (npInvMat
          (sys.pencil ⟨0, (np_logspace a b n).getD k 0⟩))).matmul sys.B).add sys.D) :=
      congrArg Prod.fst hpair2
    have h2 : ps.getD k npEmpty =
        complex_to_deg (((sys.C.matmul (npInvMat
          (sys.pencil ⟨0, (np_logspace a b n).getD k 0⟩))).matmul sys.B).add sys.D) :=
      congrArg Prod.snd hpair2
    refine ⟨hpt k hk2, ?_, ?_⟩
    · rw [h1]
      show [sys.C.rows, sys.B.cols] = [sys.p, sys.m]
      rw [hp, hm]
    · rw [h2]
      show [sys.C.rows, sys.B.cols] = [sys.p, sys.m]
      rw [hp, hm]

/-- Witness for C7 (amended): the concrete regular system `sysStable` with
`startExp = endExp = 0` and a single sample. -/
theorem eval_fr_range_spec_witness :
    sysStable.isRegular = true ∧ 1 ≤ 1 ∧ (0 : ℝ) ≤ (0 : ℝ) ∧
    ((np_logspace 0 0 1).length = 1 ∧
    (np_logspace 0 0 1).getD 0 0 = Real.rpow 10 0 ∧
    (2 ≤ 1 → (np_logspace 0 0 1).getD (1 - 1) 0 = Real.rpow 10 0) ∧
    (np_logspace 0 0 1).Sorted (· ≤ ·) ∧
    (∀ w ∈ np_logspace 0 0 1, Real.rpow 10 0 ≤ w ∧ w ≤ Real.rpow 10 0) ∧
    (∃ ms ps, eval_fr_range sysStable 0 0 1 = .ok (ms, ps) ∧ ms.length = 1 ∧
      ps.length = 1 ∧
      ∀ k, k < 1 →
        eval_fr sysStable ⟨0, (np_logspace 0 0 1).getD k 0⟩
          = .ok (ms.getD k npEmpty, ps.getD k npEmpty) ∧
        (ms.getD k npEmpty).shape = [sysStable.p, sysStable.m] ∧
        (ps.getD k npEmpty).shape = [sysStable.p, sysStable.m])) :=
  ⟨rfl, le_refl 1, le_refl 0,
    eval_fr_range_spec sysStable 0 0 1 rfl (le_refl 1) (le_refl 0) rfl rfl
      fun w _ => ⟨rfl, sysStable_pencil_det_ne w⟩⟩

/-- Counterexample to C7 as stated: with `startExp = 1 > endExp = 0` the two
frequency samples are `[10, 1]`, evaluated in that (descending) order — not
ascending; and with `numPoints = 1` the single sample is `10 ^ startExp`,
so `10 ^ endExp` is not included. -/
theorem eval_fr_range_not_ascending :
    sysStable.isRegular = true ∧
    np_logspace 1 0 2 = [10, 1] ∧
    ¬ (np_logspace 1 0 2).Sorted (· ≤ ·) ∧
    (∃ ms ps, eval_fr_range sysStable 1 0 2 = .ok (ms, ps) ∧ ms.length = 2 ∧
      eval_fr sysStable ⟨0, 10⟩ = .ok (ms.getD 0 npEmpty, ps.getD 0 npEmpty) ∧
      eval_fr sysStable ⟨0, 1⟩ = .ok (ms.getD 1 npEmpty, ps.getD 1 npEmpty)) ∧
    np_logspace 0 1 1 = [1] ∧
    Real.rpow 10 1 ∉ np_logspace 0 1 1 := by
  have key2 : ∀ i, i < (np_logspace 1 0 2).length →
      (np_logspace 1 0 2).getD i 0 =
        Real.rpow 10 (1 + (i : ℝ) * (((0 : ℝ) - 1) / (((2 : ℕ) : ℝ) - 1))) := by
    intro i h
    exact np_logspace_getD 1 0 2 i (by simpa [np_logspace_length] using h)
  have hls : np_logspace 1 0 2 = [10, 1] := by
    refine List.ext_getElem (by rw [np_logspace_length]; rfl) ?_
    intro i h1 h2
    have hi2 : i < 2 := by simpa using h2
    rw [← List.getD_eq_getElem _ 0 h1, key2 i h1]
    interval_cases i
    · have he : (1 : ℝ) + ((0 : ℕ) : ℝ) * (((0 : ℝ) - 1) / (((2 : ℕ) : ℝ) - 1)) = 1 := by
        norm_num
      rw [he]
      show Real.rpow 10 1 = (10 : ℝ)
      exact Real.rpow_one 10
    · have he : (1 : ℝ) + ((1 : ℕ) : ℝ) * (((0 : ℝ) - 1) / (((2 : ℕ) : ℝ) - 1)) = 0 := by
        norm_num
      rw [he]
      show Real.rpow 10 0 = (1 : ℝ)
      exact Real.rpow_zero 10
  have hls1 : np_logspace 0 1 1 = [1] := by
    refine List.ext_getElem (by rw [np_logspace_length]; rfl) ?_
    intro i h1 h2
    have hi1 : i < 1 := by simpa using h2
    rw [← List.getD_eq_getElem _ 0 h1,
      np_logspace_getD 0 1 1 i (by simpa [np_logspace_length] using h1)]
    interval_cases i
    have he : (0 : ℝ) + ((0 : ℕ) : ℝ) * (((1 : ℝ) - 0) / (((1 : ℕ) : ℝ) - 1)) = 0 := by
      norm_num
    rw [he]
    show Real.rpow 10 0 = (1 : ℝ)
    exact Real.rpow_zero 10
  have hnotsort : ¬ (np_logspace 1 0 2).Sorted (· ≤ ·) := by
    rw [hls]
    intro hs
    have h10 := (List.sorted_cons.mp hs).1 1 (by simp)
    norm_num at h10
  have hnot10 : Real.rpow 10 1 ∉ np_logspace 0 1 1 := by
    rw [hls1]
    rw [show Real.rpow 10 1 = (10 : ℝ) from Real.rpow_one 10]
    simp
  obtain ⟨ms, ps, hsw, hlm, hlp, hpt⟩ := sweep_ok sysStable (np_logspace 1 0 2)
    (fun w _ => ⟨_, eval_fr_ok sysStable ⟨0, w⟩ rfl
      (tf_ok_aux sysStable ⟨0, w⟩ rfl rfl (sysStable_pencil_det_ne w))⟩)
  refine ⟨rfl, hls, hnotsort, ⟨ms, ps, ?_, ?_, ?_, ?_⟩, hls1, hnot10⟩
  · unfold eval_fr_range
    rw [if_neg (not_not_intro (show sysStable.isRegular = true from rfl)), hsw]
  · rw [hlm, np_logspace_length]
  · have h0 := hpt 0 (by rw [np_logspace_length]; norm_num)
    rw [hls] at h0
    exact h0
  · have h1 := hpt 1 (by rw [np_logspace_length]; norm_num)
    rw [hls] at h1
    exact h1

end LinearDAEs
